import Mathlib

/-!
Verification development for the hypergraph rewriting core
(src/modules/HypergraphRewritingSystem.mjs).

The module is embedded shallowly: every method becomes a pure function and
the mutable instance fields (spatial graph, causal graph, step and event
counters) become an explicit state record threaded through the scheduler
loop.  The two external stores (SpatialGraph, CausalGraph) are not part of
the visible sources; their operations are modelled from the specification's
interface contracts and are marked as such in their doc comments.
-/

namespace HG

/-- Decimal character representation of an integer, as the JavaScript
String(n) conversion renders it. -/
def jsStr (i : Int) : List Char :=
  if i < 0 then '-' :: Nat.toDigits 10 i.natAbs else Nat.toDigits 10 i.toNat

/-- Code-point lexicographic comparison of character lists, as JavaScript
compares strings; a proper prefix sorts before its extensions. -/
def strLe : List Char → List Char → Bool
  | [], _ => true
  | _ :: _, [] => false
  | a :: as, b :: bs => if a = b then strLe as bs else decide (a < b)

/-- Order used by the JavaScript default Array.sort comparator on numbers:
compare the decimal string representations. -/
def jsLe (a b : Int) : Prop := strLe (jsStr a) (jsStr b) = true

instance : DecidableRel jsLe := fun a b => by unfold jsLe; infer_instance

/-- First-occurrence deduplication with an accumulator of already seen
values; the JavaScript Set constructor keeps insertion order. -/
def dedupFirstAux (seen : List Int) : List Int → List Int
  | [] => []
  | x :: xs => if x ∈ seen then dedupFirstAux seen xs else x :: dedupFirstAux (x :: seen) xs

/-- First-occurrence deduplication, the order produced by spreading a
JavaScript Set built from the list. -/
def dedupFirst (l : List Int) : List Int := dedupFirstAux [] l

/-- Embedding of the source expression [ ...new Set(l) ].sort() (lines 130
and 260): deduplicate keeping first occurrences, then stable-sort with the
JavaScript default comparator, which compares decimal strings. -/
def dedupJsSort (l : List Int) : List Int := List.insertionSort jsLe (dedupFirst l)

/-- Modelled from the spec: the external hypergraph store (SpatialGraph is
not under src/).  Edges form an insertion-ordered multiset of hyperedges
(ordered vertex sequences, duplicates meaningful); maxv is the high-water
mark of allocated vertex identifiers. -/
structure Hypergraph where
  edges : List (List Int)
  maxv : Int
deriving DecidableEq

/-- Template matching for Hypergraph.find: arities must agree, fixed
positions must be equal, and free positions (the -1 sentinel written by
findMatches for unbound variables) are unconstrained. -/
def matchesTemplate (t e : List Int) : Bool :=
  decide (e.length = t.length) &&
    (List.range t.length).all (fun i => decide (t.getD i 0 < 0) || decide (t.getD i 0 = e.getD i 0))

/-- Modelled from the spec: findEdgesMatching returns every live edge
matching a partially bound template. -/
def Hypergraph.find (g : Hypergraph) (t : List Int) : List (List Int) :=
  g.edges.filter (matchesTemplate t)

/-- Modelled from the spec: countOccurrences gives the multiplicity of a
fully concrete edge set, the number of disjoint copies of the whole set
simultaneously present in the multigraph. -/
def Hypergraph.count (g : Hypergraph) (es : List (List Int)) : Nat :=
  (es.map (fun e => g.edges.count e / es.count e)).foldr min (g.edges.length + 1)

/-- Modelled from the spec: applyDelta removes one occurrence of each edge
of del, appends the edges of add, and extends maxv over every vertex
referenced in add. -/
def Hypergraph.rewrite (g : Hypergraph) (del add : List (List Int)) : Hypergraph :=
  ⟨(g.edges.diff del) ++ add, add.flatten.foldl max g.maxv⟩

/-- Substitution of a single pattern variable, the inner arrow function of
mapper (line 47): a variable inside the assignment's range reads the bound
vertex, an unbound one becomes the fresh vertex maxv + (v - map.length) + 1. -/
def substVar (graph : Hypergraph) (map : List Int) (v : Nat) : Int :=
  if v < map.length then map.getD v 0 else graph.maxv + ((v - map.length : Nat) : Int) + 1

/-- Embedding of mapper (lines 46-48): substitute every pattern of the list
under the assignment. -/
def mapper (graph : Hypergraph) (patterns : List (List Nat)) (map : List Int) : List (List Int) :=
  patterns.map (fun p => p.map (substVar graph map))

/-- Rewriting rule: left-hand side and right-hand side pattern lists. -/
structure Rule where
  lhs : List (List Nat)
  rhs : List (List Nat)
deriving DecidableEq

instance : Inhabited Rule := ⟨⟨[], []⟩⟩

/-- Hit produced by the match finder: rule index r and assignment m. -/
structure Match where
  r : Nat
  m : List Int
deriving DecidableEq

/-- Positional binding loops of findMatches (lines 74 and 89): write the
edge's vertices into the map at the pattern's variable indices.  The JS
loops run from the last index down to 0, so for a repeated variable the
earliest occurrence wins; find? picks exactly that occurrence. -/
def bindPattern (p : List Nat) (e : List Int) (map : List Int) : List Int :=
  (List.range map.length).map (fun i =>
    match (p.zip e).find? (fun q => decide (q.1 = i)) with
    | some q => q.2
    | none => map.getD i 0)

/-- Largest variable index of a rule's left-hand side, the Math.max of
line 72 (the sources guarantee a non-empty lhs, on which foldr max 0 is
that maximum). -/
def maxVar (rule : Rule) : Nat := rule.lhs.flatten.foldr max 0

/-- Seed assignment that findMatches derives from one edge for a rule
(lines 72-74): a -1-filled array of size maxVar + 1 with the edge bound
positionally through the first lhs pattern. -/
def seedFor (rule : Rule) (edge : List Int) : List Int :=
  bindPattern (rule.lhs.headD []) edge (List.replicate (maxVar rule + 1) (-1))

/-- Join step of findMatches (lines 79-93): extend every partial
assignment by each real edge matching the substituted pattern template;
both JS loops run from the far end, hence the reverses. -/
def extendStep (g : Hypergraph) (pattern : List Nat) (maps : List (List Int)) : List (List Int) :=
  maps.reverse.flatMap (fun mk =>
    ((g.find ((mapper g [pattern] mk).headD [])).reverse).map (fun e => bindPattern pattern e mk))

/-- Hits contributed by one edge and one rule inside findMatches
(lines 65-98): arity filter, seed assignment, join over the remaining lhs
patterns, then replication by the multiplicity of the fully substituted
left-hand side. -/
def matchesForEdgeRule (g : Hypergraph) (i : Nat) (rule : Rule) (edge : List Int) : List Match :=
  if edge.length = (rule.lhs.headD []).length then
    let mapsNext := (rule.lhs.drop 1).foldl (fun maps pattern => extendStep g pattern maps) [seedFor rule edge]
    mapsNext.reverse.flatMap (fun mk => List.replicate (g.count (mapper g rule.lhs mk)) ⟨i, mk⟩)
  else []

/-- Embedding of findMatches (lines 54-100): hits for every edge and every
rule, in the JS push order; an empty rule set returns immediately. -/
def findMatches (rules : List Rule) (g : Hypergraph) : List Match :=
  if rules.length = 0 then []
  else g.edges.flatMap (fun edge =>
    (List.range rules.length).flatMap (fun i => matchesForEdgeRule g i (rules.getD i default) edge))

/-- Modelled from the spec: a causal event of the external causal store,
recording consumed vertices, produced vertices and the step stamp
(recordEvent appends such an event). -/
structure CEvent where
  consumed : List Int
  produced : List Int
  step : Nat
deriving DecidableEq

/-- Mutable instance fields of the rewriting system that the scheduler
threads between rounds. -/
structure SysState where
  spatial : Hypergraph
  causal : List CEvent
  eventcnt : Nat
  step : Nat
deriving DecidableEq

/-- Serialization p.join(",") used by the overlap factoring
(lines 112-113). -/
def joinStr (p : List Nat) : List Char := List.intercalate [','] (p.map (fun n => Nat.toDigits 10 n))

/-- Overlap removal of processMatches (lines 110-115): drop from each side
every pattern whose join string also occurs on the other side. -/
def factorRule (r : Rule) : Rule :=
  ⟨r.lhs.filter (fun p => !(r.rhs.map joinStr).contains (joinStr p)),
   r.rhs.filter (fun p => !(r.lhs.map joinStr).contains (joinStr p))⟩

/-- One successful application inside processMatches (lines 122-134):
rewrite the spatial graph by the factored delta, append the causal event
whose consumed set is the hit's assignment and whose produced set is the
deduplicated JS-sorted vertex set of the added edges, and bump the event
counter. -/
def applyHit (rules : List Rule) (st : SysState) (mt : Match) : SysState :=
  let nol := (rules.map factorRule).getD mt.r default
  let del := mapper st.spatial nol.lhs mt.m
  let add := mapper st.spatial nol.rhs mt.m
  ⟨st.spatial.rewrite del add,
   st.causal ++ [⟨mt.m, dedupJsSort add.flatten, st.step⟩],
   st.eventcnt + 1,
   st.step⟩

/-- Embedding of the processMatches loop (lines 118-137): re-validate each
hit against the live graph by counting the substituted full left-hand side,
apply valid hits, and break as soon as the post-incremented counter reaches
maxevents. -/
def processMatches (rules : List Rule) (maxevents : Nat) : List Match → SysState → SysState
  | [], st => st
  | mt :: rest, st =>
    if st.spatial.count (mapper st.spatial (rules.getD mt.r default).lhs mt.m) ≠ 0 then
      let st2 := applyHit rules st mt
      if maxevents ≤ st2.eventcnt then st2 else processMatches rules maxevents rest st2
    else processMatches rules maxevents rest st

/-- Budget-free variant of the processMatches loop, used to express the
total number of reachable events of a run. -/
def processAll (rules : List Rule) : List Match → SysState → SysState
  | [], st => st
  | mt :: rest, st =>
    if st.spatial.count (mapper st.spatial (rules.getD mt.r default).lhs mt.m) ≠ 0 then
      processAll rules rest (applyHit rules st mt)
    else processAll rules rest st

/-- Event ordering policy selected for a run. -/
inductive EventOrdering where
  | random
  | ascending
  | descending
deriving DecidableEq

/-- Rule ordering policy selected for a run. -/
inductive RuleOrdering where
  | mixed
  | index
  | indexrev
deriving DecidableEq

/-- Ordering key attached to a hit (lines 161-163): the first causal rank
of each bound vertex, stable-sorted descending (the JS comparator
(a,b) => b - a). -/
def orderKey (rank : Int → Int) (mt : Match) : List Int :=
  List.insertionSort (fun a b : Int => b ≤ a) (mt.m.map rank)

/-- Comparator of the ascending event ordering (lines 165-171), with the
sign convention of a JS comparator: walk the common positions, return
b - a at the first difference, otherwise the length difference. -/
def cmpAsc : List Int → List Int → Int
  | a :: as, b :: bs => if a = b then cmpAsc as bs else b - a
  | as, bs => (bs.length : Int) - (as.length : Int)

/-- Comparator of the descending event ordering (lines 173-179), the exact
mirror of the ascending one. -/
def cmpDesc (a b : List Int) : Int := cmpAsc b a

/-- Event-ordering stage (lines 160-181): for a non-random policy the hits
are stable-sorted by the selected comparator (a JS sort with comparator c
is the stable sort by c ≤ 0); random leaves the shuffled list alone. -/
def orderEvent (rank : Int → Int) (eo : EventOrdering) (ms : List Match) : List Match :=
  match eo with
  | .random => ms
  | .ascending =>
      List.insertionSort (fun a b => cmpAsc (orderKey rank a) (orderKey rank b) ≤ 0) ms
  | .descending =>
      List.insertionSort (fun a b => cmpDesc (orderKey rank a) (orderKey rank b) ≤ 0) ms

/-- Rule-ordering stage (lines 183-189): with more than one rule defined,
stable-sort the hits by rule index. -/
def orderRule (ruleCount : Nat) (ro : RuleOrdering) (ms : List Match) : List Match :=
  if 1 < ruleCount then
    match ro with
    | .index => List.insertionSort (fun a b => a.r ≤ b.r) ms
    | .indexrev => List.insertionSort (fun a b => b.r ≤ a.r) ms
    | .mixed => ms
  else ms

/-- Run-constant parameters of the scheduler: the rule set, the shuffle
outcome for each step (one list permutation per round, standing for the
Math.random Fisher-Yates shuffle of lines 156-159), the causal store's
per-vertex first rank (modelled from the spec: rankOf / causal.L), and the
two ordering policies. -/
structure Params where
  rules : List Rule
  shuffle : Nat → List Match → List Match
  rankOf : List CEvent → Int → Int
  eo : EventOrdering
  ro : RuleOrdering

/-- Full one-round ordering pipeline of the rewrite loop: uniform shuffle,
then event ordering, then rule ordering. -/
def orderAll (ps : Params) (causal : List CEvent) (step : Nat) (ms : List Match) : List Match :=
  orderRule ps.rules.length ps.ro (orderEvent (ps.rankOf causal) ps.eo (ps.shuffle step ms))

/-- Embedding of the rewrite loop (lines 144-216), fuel-indexed: each
iteration is one round (step increment, findMatches, ordering,
processMatches).  some st is the state at which onFinished fires with
st.eventcnt; none means the fuel ran out first.  Wall-clock slice
boundaries and the inter-slice delay do not alter the round sequence, so
they are not modelled. -/
def rewriteLoop (ps : Params) (maxevents : Nat) : Nat → SysState → Option SysState
  | 0, _ => none
  | fuel + 1, st =>
    let st1 : SysState := ⟨st.spatial, st.causal, st.eventcnt, st.step + 1⟩
    let ms := findMatches ps.rules st1.spatial
    if ms = [] then some st1
    else
      let st2 := processMatches ps.rules maxevents (orderAll ps st1.causal st1.step ms) st1
      if maxevents ≤ st2.eventcnt then some st2 else rewriteLoop ps maxevents fuel st2

/-- Budget-free rewrite loop: rounds run until match exhaustion; the final
event counter is the total number of reachable events of the run. -/
def rewriteLoopAll (ps : Params) : Nat → SysState → Option SysState
  | 0, _ => none
  | fuel + 1, st =>
    let st1 : SysState := ⟨st.spatial, st.causal, st.eventcnt, st.step + 1⟩
    let ms := findMatches ps.rules st1.spatial
    if ms = [] then some st1
    else rewriteLoopAll ps fuel (processAll ps.rules (orderAll ps st1.causal st1.step ms) st1)

/-- Initialization done by run (lines 239-260): cleared stores, counters at
zero, the initial edges seeded as one bulk rewrite and one initial causal
event consuming nothing. -/
def runInit (initial : List (List Int)) : SysState :=
  ⟨Hypergraph.rewrite ⟨[], 0⟩ [] initial,
   [⟨[], dedupJsSort initial.flatten, 0⟩],
   0, 0⟩

/-- Modelled from the spec: findEdgesMatching as a state-threaded store
access, returning its result together with the store it leaves behind
(the contract says it is a pure reader). -/
def Hypergraph.findSt (g : Hypergraph) (t : List Int) : List (List Int) × Hypergraph :=
  (g.find t, g)

/-- Modelled from the spec: countOccurrences as a state-threaded store
access (a pure reader by contract). -/
def Hypergraph.countSt (g : Hypergraph) (es : List (List Int)) : Nat × Hypergraph :=
  (g.count es, g)

/-- Join step of findMatches with the store threaded through each findSt
access, in the exact JS loop order (both loops from the far end). -/
def extendStepSt (g : Hypergraph) (pattern : List Nat) (maps : List (List Int)) :
    List (List Int) × Hypergraph :=
  maps.reverse.foldl (fun acc4 mk =>
    (acc4.1 ++ ((Hypergraph.findSt acc4.2 ((mapper acc4.2 [pattern] mk).headD [])).1.reverse).map
        (fun e => bindPattern pattern e mk),
     (Hypergraph.findSt acc4.2 ((mapper acc4.2 [pattern] mk).headD [])).2)) ([], g)

/-- Store-threaded join over the remaining lhs patterns of a rule. -/
def joinedSt (g : Hypergraph) (rule : Rule) (edge : List Int) :
    List (List Int) × Hypergraph :=
  (rule.lhs.drop 1).foldl (fun acc3 pattern => extendStepSt acc3.2 pattern acc3.1)
    ([seedFor rule edge], g)

/-- Store-threaded hit generation for one edge and one rule, with every
countSt access threading the store. -/
def matchesForEdgeRuleSt (g : Hypergraph) (i : Nat) (rule : Rule) (edge : List Int) :
    List Match × Hypergraph :=
  if edge.length = (rule.lhs.headD []).length then
    let joined := joinedSt g rule edge
    joined.1.reverse.foldl (fun acc5 mk =>
      (acc5.1 ++ List.replicate ((Hypergraph.countSt acc5.2 (mapper acc5.2 rule.lhs mk)).1)
          ⟨i, mk⟩,
       (Hypergraph.countSt acc5.2 (mapper acc5.2 rule.lhs mk)).2)) ([], joined.2)
  else ([], g)

/-- Embedding of findMatches with the hypergraph store threaded through
every single access, used to state the frame property of the Match Finder:
the returned store is the input store. -/
def findMatchesSt (rules : List Rule) (g0 : Hypergraph) : List Match × Hypergraph :=
  if rules.length = 0 then ([], g0)
  else
    g0.edges.foldl (fun acc edge =>
      (List.range rules.length).foldl (fun acc2 i =>
        (acc2.1 ++ (matchesForEdgeRuleSt acc2.2 i (rules.getD i default) edge).1,
         (matchesForEdgeRuleSt acc2.2 i (rules.getD i default) edge).2)) acc) ([], g0)

/-- Concrete one-rule system used by the example runs: the rule (0) -> []
deletes a unary edge. -/
def exRuleDel : Rule := ⟨[[0]], []⟩

/-- Concrete scheduler parameters: the deletion rule, identity shuffle,
constant causal rank, random event ordering, mixed rule ordering. -/
def exPs : Params := ⟨[exRuleDel], fun _ l => l, fun _ _ => 0, EventOrdering.random, RuleOrdering.mixed⟩

/-- Concrete initial state seeded with the two unary edges (1) and (2). -/
def exSt : SysState := runInit [[1], [2]]

/-- Helper: a pattern present in a pattern list makes the joined-string
containment test of the factoring succeed. -/
theorem contains_joinStr (l : List (List Nat)) (p : List Nat) (h : p ∈ l) :
    (l.map joinStr).contains (joinStr p) = true := by
  have : joinStr p ∈ l.map joinStr := List.mem_map_of_mem joinStr h
  simpa using this

/-- Helper: factoring a rule with syntactically equal sides leaves the
empty delta. -/
theorem factorRule_self (r : Rule) (h : r.lhs = r.rhs) : factorRule r = ⟨[], []⟩ := by
  unfold factorRule
  rw [h]
  have hf : ∀ l : List (List Nat),
      l.filter (fun p => !(l.map joinStr).contains (joinStr p)) = [] := by
    intro l
    apply List.filter_eq_nil_iff.mpr
    intro p hp
    simp
    exact ⟨p, hp, rfl⟩
  rw [hf]

/-- Helper: factoring commutes with indexing into the mapped rule list,
because the default rule factors to itself. -/
theorem getD_map_factorRule (rules : List Rule) (n : Nat) :
    (rules.map factorRule).getD n default = factorRule (rules.getD n default) := by
  by_cases h : n < rules.length
  · rw [List.getD_eq_getElem _ _ (by simpa using h), List.getD_eq_getElem _ _ h,
      List.getElem_map]
  · rw [List.getD_eq_default _ _ (by simpa using h), List.getD_eq_default _ _ (by omega)]
    rfl

/-- Helper: applying a hit whose factored rule is the empty delta keeps the
spatial graph intact. -/
theorem applyHit_empty_delta (rules : List Rule) (st : SysState) (mt : Match)
    (h : (rules.map factorRule).getD mt.r default = ⟨[], []⟩) :
    (applyHit rules st mt).spatial = st.spatial := by
  simp only [applyHit, h, mapper, List.map_nil, Hypergraph.rewrite, List.diff_nil,
    List.append_nil, List.flatten_nil, List.foldl_nil]

/-- C1: the Match Processor applies a hit only when the substituted full
left-hand side is still present; a hit whose substituted lhs has
multiplicity zero is skipped outright, and processing it is identical to
processing the remaining hits alone, so it performs no rewrite, records no
causal event and leaves the event counter untouched. -/
theorem C1_invalid_hit_skipped (rules : List Rule) (maxevents : Nat) (mt : Match)
    (rest : List Match) (st : SysState)
    (h : st.spatial.count (mapper st.spatial (rules.getD mt.r default).lhs mt.m) = 0) :
    processMatches rules maxevents (mt :: rest) st = processMatches rules maxevents rest st := by
  simp only [processMatches]
  exact if_neg (by simpa using h)

/-- Witness for C1 at a concrete invalid hit: the graph is empty, so the
substituted lhs of the hit (rule (0) -> [], assignment [5]) is absent. -/
theorem C1_invalid_hit_skipped_witness :
    (⟨⟨[], 0⟩, [], 0, 0⟩ : SysState).spatial.count
        (mapper (⟨⟨[], 0⟩, [], 0, 0⟩ : SysState).spatial
          (([⟨[[0]], []⟩] : List Rule).getD (⟨0, [5]⟩ : Match).r default).lhs (⟨0, [5]⟩ : Match).m) = 0
    ∧ processMatches [⟨[[0]], []⟩] 5 [⟨0, [5]⟩] ⟨⟨[], 0⟩, [], 0, 0⟩
        = processMatches [⟨[[0]], []⟩] 5 [] ⟨⟨[], 0⟩, [], 0, 0⟩ :=
  ⟨by decide, C1_invalid_hit_skipped _ _ _ _ _ (by decide)⟩

/-- C3: the Pattern Mapper substitutes a bound variable by its assignment
entry and an unbound one by maxv + (v - map.length) + 1; every fresh vertex
exceeds maxv, the same unbound index always gives the same fresh vertex,
and distinct unbound indices give distinct fresh vertices. -/
theorem C3_mapper_substitution (g : Hypergraph) (map : List Int) (patterns : List (List Nat)) :
    (mapper g patterns map = patterns.map (fun p => p.map (substVar g map)))
    ∧ (∀ v : Nat, v < map.length → substVar g map v = map.getD v 0)
    ∧ (∀ v : Nat, map.length ≤ v →
        substVar g map v = g.maxv + ((v - map.length : Nat) : Int) + 1
          ∧ g.maxv < substVar g map v)
    ∧ (∀ v w : Nat, map.length ≤ v → map.length ≤ w →
        substVar g map v = substVar g map w → v = w) := by
  refine ⟨rfl, ?_, ?_, ?_⟩
  · intro v hv
    simp [substVar, hv]
  · intro v hv
    have hnot : ¬ v < map.length := not_lt.mpr hv
    refine ⟨by simp [substVar, hnot], ?_⟩
    simp only [substVar, if_neg hnot]
    have h0 : (0 : Int) ≤ ((v - map.length : Nat) : Int) := Int.natCast_nonneg _
    omega
  · intro v w hv hw hEq
    have hnv : ¬ v < map.length := not_lt.mpr hv
    have hnw : ¬ w < map.length := not_lt.mpr hw
    simp only [substVar, if_neg hnv, if_neg hnw] at hEq
    omega

/-- Witness for C3 at maxv = 10 and a one-element assignment: variable 0 is
bound to 4, variables 1 and 2 are fresh (11 and 12, both above maxv). -/
theorem C3_mapper_substitution_witness :
    substVar ⟨[], 10⟩ [4] 0 = 4
    ∧ substVar ⟨[], 10⟩ [4] 1 = 10 + ((1 - 1 : Nat) : Int) + 1
    ∧ (10 : Int) < substVar ⟨[], 10⟩ [4] 2 :=
  ⟨(C3_mapper_substitution ⟨[], 10⟩ [4] []).2.1 0 (by decide),
   ((C3_mapper_substitution ⟨[], 10⟩ [4] []).2.2.1 1 (by decide)).1,
   ((C3_mapper_substitution ⟨[], 10⟩ [4] []).2.2.1 2 (by decide)).2⟩

/-- C7: a rule whose lhs and rhs are structurally equal factors to the
empty {lhsOnly, rhsOnly} delta, and applying any such rule through the
Match Processor leaves the spatial hypergraph (edges and maxv) unchanged. -/
theorem C7_idempotent_rule_factoring :
    (∀ r : Rule, r.lhs = r.rhs → factorRule r = ⟨[], []⟩)
    ∧ (∀ (rules : List Rule) (st : SysState) (mt : Match),
        (∀ r, r ∈ rules → r.lhs = r.rhs) → (applyHit rules st mt).spatial = st.spatial) := by
  refine ⟨factorRule_self, ?_⟩
  intro rules st mt hall
  have hr : (rules.getD mt.r default).lhs = (rules.getD mt.r default).rhs := by
    by_cases h : mt.r < rules.length
    · refine hall _ ?_
      rw [List.getD_eq_getElem _ _ h]
      exact List.getElem_mem h
    · rw [List.getD_eq_default _ _ (by omega)]
      rfl
  refine applyHit_empty_delta _ _ _ ?_
  rw [getD_map_factorRule]
  exact factorRule_self _ hr

/-- Witness for C7 at the identity rule (0,1) -> (0,1) applied on the
example state. -/
theorem C7_idempotent_rule_factoring_witness :
    factorRule ⟨[[0, 1]], [[0, 1]]⟩ = ⟨[], []⟩
    ∧ (applyHit [⟨[[0, 1]], [[0, 1]]⟩] exSt ⟨0, [1, 2]⟩).spatial = exSt.spatial :=
  ⟨C7_idempotent_rule_factoring.1 _ rfl,
   C7_idempotent_rule_factoring.2 _ _ _ (by decide)⟩

/-- Helper: the factoring of a rule [P, P] -> [P] is the empty delta: both
lhs occurrences of P are removed because P occurs on the rhs, and the rhs
occurrence is removed because P occurs on the lhs. -/
theorem factorRule_PP (P : List Nat) : factorRule ⟨[P, P], [P]⟩ = ⟨[], []⟩ := by
  have h1 : (([P] : List (List Nat)).map joinStr).contains (joinStr P) = true :=
    contains_joinStr [P] P (by simp)
  have h2 : (([P, P] : List (List Nat)).map joinStr).contains (joinStr P) = true :=
    contains_joinStr [P, P] P (by simp)
  simp [factorRule, h1, h2]

/-- C10: the factoring is multiplicity-unaware: a pattern survives on one
side iff its join string is absent from the entire other side, so every
occurrence of a shared pattern is dropped; in particular [P, P] -> [P]
factors to the empty delta and applying it never removes any edge. -/
theorem C10_factoring_multiplicity_unaware :
    (∀ (r : Rule) (p : List Nat),
        (p ∈ (factorRule r).lhs ↔ p ∈ r.lhs ∧ (r.rhs.map joinStr).contains (joinStr p) = false)
        ∧ (p ∈ (factorRule r).rhs ↔ p ∈ r.rhs ∧ (r.lhs.map joinStr).contains (joinStr p) = false))
    ∧ (∀ P : List Nat, factorRule ⟨[P, P], [P]⟩ = ⟨[], []⟩)
    ∧ (∀ (P : List Nat) (st : SysState) (mt : Match),
        (applyHit [⟨[P, P], [P]⟩] st mt).spatial = st.spatial) := by
  refine ⟨?_, factorRule_PP, ?_⟩
  · intro r p
    constructor
    · simp [factorRule, List.mem_filter]
    · simp [factorRule, List.mem_filter]
  · intro P st mt
    refine applyHit_empty_delta _ _ _ ?_
    rw [getD_map_factorRule]
    cases hmt : mt.r with
    | zero => simpa using factorRule_PP P
    | succ n => rfl

/-- Helper: membership in the first-occurrence deduplication. -/
theorem mem_dedupFirstAux (x : Int) :
    ∀ (l seen : List Int), x ∈ dedupFirstAux seen l ↔ (x ∈ l ∧ x ∉ seen) := by
  intro l
  induction l with
  | nil => intro seen; simp [dedupFirstAux]
  | cons y ys ih =>
    intro seen
    by_cases hy : y ∈ seen
    · rw [dedupFirstAux, if_pos hy, ih]
      constructor
      · rintro ⟨hx, hns⟩
        exact ⟨List.mem_cons_of_mem _ hx, hns⟩
      · rintro ⟨hx, hns⟩
        rcases List.mem_cons.mp hx with h1 | h1
        · subst h1; exact absurd hy hns
        · exact ⟨h1, hns⟩
    · rw [dedupFirstAux, if_neg hy]
      constructor
      · intro hx
        rcases List.mem_cons.mp hx with h1 | h1
        · subst h1; exact ⟨List.mem_cons_self _ _, hy⟩
        · rcases (ih (y :: seen)).mp h1 with ⟨h2, h3⟩
          refine ⟨List.mem_cons_of_mem _ h2, fun hseen => h3 (List.mem_cons_of_mem _ hseen)⟩
      · rintro ⟨hx, hns⟩
        rcases List.mem_cons.mp hx with h1 | h1
        · subst h1; exact List.mem_cons_self _ _
        · by_cases hxy : x = y
          · subst hxy; exact List.mem_cons_self _ _
          · exact List.mem_cons_of_mem _
              ((ih (y :: seen)).mpr ⟨h1, by simp [List.mem_cons, hxy, hns]⟩)

/-- Helper: the first-occurrence deduplication has no duplicates. -/
theorem nodup_dedupFirstAux : ∀ (l seen : List Int), (dedupFirstAux seen l).Nodup := by
  intro l
  induction l with
  | nil => intro seen; simp [dedupFirstAux]
  | cons y ys ih =>
    intro seen
    by_cases hy : y ∈ seen
    · rw [dedupFirstAux, if_pos hy]
      exact ih seen
    · rw [dedupFirstAux, if_neg hy]
      refine List.nodup_cons.mpr ⟨?_, ih (y :: seen)⟩
      intro hmem
      exact ((mem_dedupFirstAux y ys (y :: seen)).mp hmem).2 (List.mem_cons_self _ _)

/-- Helper: the JavaScript string comparison is total. -/
theorem strLe_total : ∀ s t : List Char, strLe s t = true ∨ strLe t s = true := by
  intro s
  induction s with
  | nil => intro t; left; rfl
  | cons a as ih =>
    intro t
    cases t with
    | nil => right; rfl
    | cons b bs =>
      by_cases hab : a = b
      · subst hab
        rcases ih bs with h | h
        · left; simpa [strLe] using h
        · right; simpa [strLe] using h
      · rcases lt_or_gt_of_ne hab with h | h
        · left; simp [strLe, hab, h]
        · right; simp [strLe, Ne.symm hab, h]

/-- Helper: the JavaScript string comparison is transitive. -/
theorem strLe_trans :
    ∀ s t u : List Char, strLe s t = true → strLe t u = true → strLe s u = true := by
  intro s
  induction s with
  | nil => intro t u h1 h2; rfl
  | cons a as ih =>
    intro t u h1 h2
    cases t with
    | nil => simp [strLe] at h1
    | cons b bs =>
      cases u with
      | nil => simp [strLe] at h2
      | cons c cs =>
        by_cases hab : a = b <;> by_cases hbc : b = c
        · subst hab; subst hbc
          simp only [strLe, if_pos rfl] at h1 h2 ⊢
          exact ih bs cs h1 h2
        · subst hab
          simp only [strLe, if_pos rfl] at h1
          simp only [strLe, if_neg hbc] at h2 ⊢
          exact h2
        · subst hbc
          simp only [strLe, if_neg hab] at h1 ⊢
          exact h1
        · simp only [strLe, if_neg hab] at h1
          simp only [strLe, if_neg hbc] at h2
          have h1h : a < b := of_decide_eq_true h1
          have h2h : b < c := of_decide_eq_true h2
          have hac : a < c := lt_trans h1h h2h
          simp [strLe, ne_of_lt hac, hac]

instance : IsTotal Int jsLe := ⟨fun a b => strLe_total (jsStr a) (jsStr b)⟩

instance : IsTrans Int jsLe := ⟨fun a b c => strLe_trans (jsStr a) (jsStr b) (jsStr c)⟩

/-- Helper: dedupJsSort produces a duplicate-free list. -/
theorem nodup_dedupJsSort (l : List Int) : (dedupJsSort l).Nodup :=
  ((List.perm_insertionSort jsLe (dedupFirst l)).nodup_iff).mpr (nodup_dedupFirstAux l [])

/-- Helper: dedupJsSort preserves membership. -/
theorem mem_dedupJsSort (l : List Int) (v : Int) : v ∈ dedupJsSort l ↔ v ∈ l := by
  rw [dedupJsSort, (List.perm_insertionSort jsLe (dedupFirst l)).mem_iff, dedupFirst,
    mem_dedupFirstAux]
  simp

/-- Helper: dedupJsSort is sorted for the JavaScript string comparator. -/
theorem sorted_dedupJsSort (l : List Int) : (dedupJsSort l).Sorted jsLe :=
  List.sorted_insertionSort jsLe (dedupFirst l)

/-- C6 (amended): every applied hit records one causal event whose consumed
set is the hit's assignment, whose produced set is the deduplicated vertex
set of the added edges sorted by the JavaScript default (decimal-string)
comparator, stamped with the current step; the seeding event of run
likewise produces the deduplicated string-sorted vertex set of the initial
edges.  The produced set is duplicate-free, has exactly the added-edge
vertices as members, and is sorted by jsLe, not by numeric order. -/
theorem C6_amended_causal_events :
    (∀ (rules : List Rule) (st : SysState) (mt : Match),
        (applyHit rules st mt).causal
          = st.causal ++ [⟨mt.m,
              dedupJsSort (mapper st.spatial ((rules.map factorRule).getD mt.r default).rhs
                mt.m).flatten,
              st.step⟩])
    ∧ (∀ initial : List (List Int),
        (runInit initial).causal = [⟨[], dedupJsSort initial.flatten, 0⟩])
    ∧ (∀ l : List Int,
        (dedupJsSort l).Nodup ∧ (∀ v : Int, v ∈ dedupJsSort l ↔ v ∈ l)
          ∧ (dedupJsSort l).Sorted jsLe) :=
  ⟨fun _ _ _ => rfl, fun _ => rfl,
   fun l => ⟨nodup_dedupJsSort l, mem_dedupJsSort l, sorted_dedupJsSort l⟩⟩

/-- Counterexample for C6 as stated: seeding run with the single edge
(2,10) records the produced set [10, 2] (JavaScript string order), which is
not sorted numerically, so the produced set is not the numerically sorted
vertex set the claim describes. -/
theorem C6_counterexample :
    (runInit [[2, 10]]).causal = [⟨[], [10, 2], 0⟩]
    ∧ ¬ List.Sorted (fun a b : Int => a ≤ b) [10, 2] := by
  exact ⟨by decide, by decide⟩

/-- Helper: the ascending comparator returns the negation of its mirror
image, so it is a consistent JS comparator. -/
theorem cmpAsc_antisymm : ∀ a b : List Int, cmpAsc a b = - cmpAsc b a := by
  intro a
  induction a with
  | nil =>
    intro b
    cases b <;> simp [cmpAsc]
  | cons x xs ih =>
    intro b
    cases b with
    | nil => simp [cmpAsc]
    | cons y ys =>
      by_cases hxy : x = y
      · subst hxy
        simp [cmpAsc, ih ys]
      · simp [cmpAsc, hxy, Ne.symm hxy]

/-- Helper: non-positivity of the ascending comparator is transitive. -/
theorem cmpAsc_trans :
    ∀ a b c : List Int, cmpAsc a b ≤ 0 → cmpAsc b c ≤ 0 → cmpAsc a c ≤ 0 := by
  intro a
  induction a with
  | nil =>
    intro b c h1 h2
    cases b with
    | nil => exact h2
    | cons y ys =>
      exfalso
      simp only [cmpAsc, List.length_nil, List.length_cons] at h1
      omega
  | cons x xs ih =>
    intro b c h1 h2
    cases b with
    | nil =>
      cases c with
      | nil =>
        simp only [cmpAsc, List.length_nil, List.length_cons]
        omega
      | cons z zs =>
        exfalso
        simp only [cmpAsc, List.length_nil, List.length_cons] at h2
        omega
    | cons y ys =>
      cases c with
      | nil =>
        simp only [cmpAsc, List.length_nil, List.length_cons]
        omega
      | cons z zs =>
        by_cases hxy : x = y <;> by_cases hyz : y = z
        · subst hxy; subst hyz
          simp only [cmpAsc, if_pos rfl] at h1 h2 ⊢
          exact ih ys zs h1 h2
        · subst hxy
          simp only [cmpAsc, if_pos rfl] at h1
          simp only [cmpAsc, if_neg hyz] at h2 ⊢
          exact h2
        · subst hyz
          simp only [cmpAsc, if_neg hxy] at h1 ⊢
          exact h1
        · simp only [cmpAsc, if_neg hxy] at h1
          simp only [cmpAsc, if_neg hyz] at h2
          have hxz : x ≠ z := by omega
          simp only [cmpAsc, if_neg hxz]
          omega

/-- Helper: the code's ascending comparator accepts a before b exactly when
a's key is lexicographically larger than b's or equal to it, where a longer
key extending a shorter one counts as larger. -/
theorem cmpAsc_le_zero_iff :
    ∀ a b : List Int, cmpAsc a b ≤ 0 ↔ (List.Lex (fun x y : Int => x < y) b a ∨ a = b) := by
  intro a
  induction a with
  | nil =>
    intro b
    cases b with
    | nil => simp [cmpAsc]
    | cons y ys =>
      simp only [cmpAsc, List.length_nil, List.length_cons]
      constructor
      · intro h; exfalso; omega
      · rintro (h | h)
        · cases h
        · cases h
  | cons x xs ih =>
    intro b
    cases b with
    | nil =>
      simp only [cmpAsc, List.length_nil, List.length_cons]
      constructor
      · intro h
        left
        exact List.Lex.nil
      · intro h
        omega
    | cons y ys =>
      by_cases hxy : x = y
      · subst hxy
        have hc : cmpAsc (x :: xs) (x :: ys) = cmpAsc xs ys := by simp [cmpAsc]
        rw [hc, ih ys]
        constructor
        · rintro (h | h)
          · left; exact List.Lex.cons h
          · right; rw [h]
        · rintro (h | h)
          · left
            cases h with
            | rel hr => exact absurd hr (lt_irrefl x)
            | cons hc2 => exact hc2
          · right
            injection h with h1 h2
      · have hc : cmpAsc (x :: xs) (y :: ys) = y - x := by simp [cmpAsc, hxy]
        rw [hc]
        constructor
        · intro h
          left
          have hlt : y < x := by
            rcases lt_or_eq_of_le (show y ≤ x by omega) with h2 | h2
            · exact h2
            · exact absurd h2.symm hxy
          exact List.Lex.rel hlt
        · rintro (h | h)
          · cases h with
            | rel hr => omega
            | cons hc2 => exact absurd rfl hxy
          · injection h with h1 h2
            exact absurd h1 hxy

/-- C5 (amended): under eventOrdering ascending the post-shuffle hit list
is stable-sorted so that the hit whose rank-key is lexicographically
LARGEST comes first (a longer key extending a shorter one counting as
larger, so prefix ties break longer-first), and each key is the list of
first causal ranks of the hit's bound vertices sorted descending. -/
theorem C5_amended_ascending_largest_first (rank : Int → Int) (ms : List Match) :
    (orderEvent rank EventOrdering.ascending ms).Perm ms
    ∧ (orderEvent rank EventOrdering.ascending ms).Sorted
        (fun a b => List.Lex (fun x y : Int => x < y) (orderKey rank b) (orderKey rank a)
          ∨ orderKey rank a = orderKey rank b)
    ∧ (∀ mt : Match,
        orderKey rank mt = List.insertionSort (fun a b : Int => b ≤ a) (mt.m.map rank)) := by
  refine ⟨List.perm_insertionSort _ ms, ?_, fun mt => rfl⟩
  haveI hto : IsTotal Match (fun a b => cmpAsc (orderKey rank a) (orderKey rank b) ≤ 0) :=
    ⟨fun a b => by
      have h := cmpAsc_antisymm (orderKey rank a) (orderKey rank b)
      omega⟩
  haveI htr : IsTrans Match (fun a b => cmpAsc (orderKey rank a) (orderKey rank b) ≤ 0) :=
    ⟨fun a b c => cmpAsc_trans _ _ _⟩
  have hs := List.sorted_insertionSort
      (fun a b => cmpAsc (orderKey rank a) (orderKey rank b) ≤ 0) ms
  exact List.Pairwise.imp (fun h => (cmpAsc_le_zero_iff _ _).mp h) hs

/-- Counterexample for C5 as stated: with identity ranks, the hit with key
[3] is lexicographically smaller than the hit with key [5], yet ascending
ordering puts the [5]-hit first, not the lexicographically smallest key. -/
theorem C5_counterexample :
    orderEvent (fun v => v) EventOrdering.ascending [⟨0, [3]⟩, ⟨0, [5]⟩]
      = [⟨0, [5]⟩, ⟨0, [3]⟩]
    ∧ List.Lex (fun x y : Int => x < y) (orderKey (fun v => v) ⟨0, [3]⟩)
        (orderKey (fun v => v) ⟨0, [5]⟩) := by
  refine ⟨by decide, ?_⟩
  exact List.Lex.rel (by decide)

/-- Helper: each member of a Nat list is bounded by its foldr max 0. -/
theorem le_foldr_max (v : Nat) : ∀ l : List Nat, v ∈ l → v ≤ l.foldr max 0 := by
  intro l
  induction l with
  | nil => intro h; simp at h
  | cons x xs ih =>
    intro h
    rcases List.mem_cons.mp h with h1 | h1
    · subst h1; exact le_max_left _ _
    · exact le_trans (ih h1) (le_max_right _ _)

/-- Helper: on a duplicate-free pattern, find? over the zip locates exactly
the pair at the queried position. -/
theorem find_zip_self :
    ∀ (p : List Nat) (e : List Int) (n : Nat), p.Nodup → n < p.length → n < e.length →
      (p.zip e).find? (fun q => decide (q.1 = p.getD n 0)) = some (p.getD n 0, e.getD n 0) := by
  intro p
  induction p with
  | nil => intro e n hnd hn he; simp at hn
  | cons x xs ih =>
    intro e n hnd hn he
    cases e with
    | nil => simp at he
    | cons y ys =>
      cases n with
      | zero =>
        rw [List.zip_cons_cons, List.find?_cons_of_pos]
        · rfl
        · simp
      | succ n =>
        have hn2 : n < xs.length := by simpa using hn
        have hx : x ≠ xs.getD n 0 := by
          have hmem : xs.getD n 0 ∈ xs := by
            rw [List.getD_eq_getElem _ _ hn2]
            exact List.getElem_mem _
          intro hEq
          have hnin := (List.nodup_cons.mp hnd).1
          rw [hEq] at hnin
          exact hnin hmem
        rw [List.zip_cons_cons, List.find?_cons_of_neg]
        · exact ih ys n (List.nodup_cons.mp hnd).2 hn2 (by simpa using he)
        · have hx2 : ¬ x = xs[n]?.getD 0 := by simpa using hx
          simp [List.getD_cons_succ, hx2]

/-- Helper: bindPattern keeps the array length of the assignment. -/
theorem bindPattern_length (p : List Nat) (e : List Int) (init : List Int) :
    (bindPattern p e init).length = init.length := by
  simp [bindPattern]

/-- Helper: reading a mapped range at an in-bounds index applies the
function to the index. -/
theorem getD_range_map {α : Type} (f : Nat → α) (size i : Nat) (d : α) (h : i < size) :
    ((List.range size).map f).getD i d = f i := by
  rw [List.getD_eq_getElem ((List.range size).map f) d
      (show i < ((List.range size).map f).length by simpa using h)]
  rw [List.getElem_map, List.getElem_range]

/-- Helper: on a duplicate-free pattern, the seeded assignment holds the
edge's vertex at each of the pattern's variable positions. -/
theorem bindPattern_getD (p : List Nat) (e : List Int) (init : List Int) (n : Nat)
    (hnd : p.Nodup) (hn : n < p.length) (hne : n < e.length)
    (hsize : ∀ v ∈ p, v < init.length) :
    (bindPattern p e init).getD (p.getD n 0) 0 = e.getD n 0 := by
  have hv : p.getD n 0 < init.length := by
    apply hsize
    rw [List.getD_eq_getElem p 0 hn]
    exact List.getElem_mem _
  rw [bindPattern, getD_range_map _ init.length (p.getD n 0) 0 hv]
  simp only [find_zip_self p e n hnd hn hne]

/-- Helper: on a duplicate-free pattern the seeding is injective in the
edge: two edges of the pattern's arity producing the same seeded
assignment are equal. -/
theorem bindPattern_inj (p : List Nat) (e₁ e₂ init : List Int) (hnd : p.Nodup)
    (h1 : e₁.length = p.length) (h2 : e₂.length = p.length)
    (hsize : ∀ v ∈ p, v < init.length)
    (heq : bindPattern p e₁ init = bindPattern p e₂ init) : e₁ = e₂ := by
  apply List.ext_getElem (by omega)
  intro n hn1 hn2
  have hn : n < p.length := by omega
  have g1 := bindPattern_getD p e₁ init n hnd hn (by omega) hsize
  have g2 := bindPattern_getD p e₂ init n hnd hn (by omega) hsize
  have g3 : e₁.getD n 0 = e₂.getD n 0 := by rw [← g1, heq, g2]
  rw [List.getD_eq_getElem e₁ 0 hn1, List.getD_eq_getElem e₂ 0 hn2] at g3
  exact g3

/-- Helper: substituting the pattern under its own seeded assignment
reproduces the seeding edge. -/
theorem map_substVar_bindPattern (g : Hypergraph) (p : List Nat) (e : List Int)
    (init : List Int) (hnd : p.Nodup) (hlen : e.length = p.length)
    (hsize : ∀ v ∈ p, v < init.length) :
    p.map (substVar g (bindPattern p e init)) = e := by
  apply List.ext_getElem (by simp [hlen])
  intro n hn1 hn2
  rw [List.getElem_map]
  have hn : n < p.length := by simpa using hn1
  have hpn : p[n] < (bindPattern p e init).length := by
    rw [bindPattern_length]
    exact hsize _ (List.getElem_mem _)
  rw [substVar, if_pos hpn]
  have gd := bindPattern_getD p e init n hnd hn (by omega) hsize
  rw [List.getD_eq_getElem _ _ hn, List.getD_eq_getElem _ _ hn2] at gd
  exact gd

/-- Helper: the multiplicity of a one-edge set is the edge's count in the
multigraph. -/
theorem count_singleton_edge (g : Hypergraph) (e : List Int) :
    g.count [e] = g.edges.count e := by
  unfold Hypergraph.count
  have h1 : ([e] : List (List Int)).count e = 1 := by simp
  simp only [List.map_cons, List.map_nil, List.foldr_cons, List.foldr_nil, h1, Nat.div_one]
  exact Nat.min_eq_left (Nat.le_succ_of_le (List.count_le_length _ _))

/-- Helper: findMatches of a one-rule system is the flatMap of the per-edge
hit generation. -/
theorem findMatches_single (r : Rule) (g : Hypergraph) :
    findMatches [r] g = g.edges.flatMap (matchesForEdgeRule g 0 r) := by
  unfold findMatches
  have hr1 : List.range 1 = [0] := rfl
  simp [hr1]

/-- Helper: hit generation for a single-pattern rule is pure replication of
the seeded hit by the multiplicity of the substituted left-hand side. -/
theorem matchesForEdgeRule_single (g : Hypergraph) (p : List Nat) (rhs : List (List Nat))
    (edge : List Int) :
    matchesForEdgeRule g 0 ⟨[p], rhs⟩ edge
      = if edge.length = p.length
        then List.replicate (g.count (mapper g [p] (seedFor ⟨[p], rhs⟩ edge)))
              ⟨0, seedFor ⟨[p], rhs⟩ edge⟩
        else [] := by
  by_cases h : edge.length = p.length
  · simp [matchesForEdgeRule, h]
  · simp [matchesForEdgeRule, h]

/-- Helper: summing the indicator-weighted map counts occurrences. -/
theorem sum_map_ite_eq (e : List Int) (m : Nat) :
    ∀ l : List (List Int), (l.map (fun x => if x = e then m else 0)).sum = m * l.count e := by
  intro l
  induction l with
  | nil => simp
  | cons x xs ih =>
    by_cases hx : x = e
    · subst hx
      simp only [List.map_cons, List.sum_cons, eq_self_iff_true, if_true, ih,
        List.count_cons_self]
      ring
    · simp only [List.map_cons, List.sum_cons, if_neg hx, ih,
        List.count_cons_of_ne (fun h => hx h.symm)]
      omega

/-- C4 (amended): for a rule whose lhs is one duplicate-free pattern, the
substituted lhs of the assignment seeded from an edge e has multiplicity
m = count of e, and one findMatches call emits m * m hits for that (rule,
assignment) pair: each of the m identical edge instances seeds the same
assignment once, and each seeding is replicated m times — not the m hits
the original claim states. -/
theorem C4_amended_multiplicity (p : List Nat) (rhs : List (List Nat)) (g : Hypergraph)
    (e : List Int) (hnd : p.Nodup) (hlen : e.length = p.length) :
    g.count (mapper g [p] (seedFor ⟨[p], rhs⟩ e)) = g.edges.count e
    ∧ (findMatches [⟨[p], rhs⟩] g).count ⟨0, seedFor ⟨[p], rhs⟩ e⟩
        = g.edges.count e * g.edges.count e := by
  have hsize : ∀ v ∈ p, v < (List.replicate (maxVar ⟨[p], rhs⟩ + 1) (-1 : Int)).length := by
    intro v hv
    rw [List.length_replicate]
    have hvle : v ≤ maxVar ⟨[p], rhs⟩ := by
      refine le_foldr_max v _ ?_
      simp [hv]
    omega
  have hsub : ∀ x : List Int, x.length = p.length →
      mapper g [p] (seedFor ⟨[p], rhs⟩ x) = [x] := by
    intro x hxlen
    unfold mapper
    simp only [List.map_cons, List.map_nil]
    rw [show seedFor ⟨[p], rhs⟩ x
        = bindPattern p x (List.replicate (maxVar ⟨[p], rhs⟩ + 1) (-1)) from rfl]
    rw [map_substVar_bindPattern g p x _ hnd hxlen hsize]
  have hc1 : g.count (mapper g [p] (seedFor ⟨[p], rhs⟩ e)) = g.edges.count e := by
    rw [hsub e hlen, count_singleton_edge]
  refine ⟨hc1, ?_⟩
  rw [findMatches_single, List.count_flatMap]
  have hpt : ∀ x ∈ g.edges,
      (List.count (⟨0, seedFor ⟨[p], rhs⟩ e⟩ : Match) ∘ matchesForEdgeRule g 0 ⟨[p], rhs⟩) x
        = if x = e then g.edges.count e else 0 := by
    intro x hx
    simp only [Function.comp_apply]
    rw [matchesForEdgeRule_single]
    by_cases hxlen : x.length = p.length
    · rw [if_pos hxlen, List.count_replicate]
      by_cases hxe : x = e
      · subst hxe
        simp only [beq_self_eq_true, if_pos rfl]
        rw [hsub x hxlen, count_singleton_edge]
      · have hne2 : (⟨0, seedFor ⟨[p], rhs⟩ x⟩ : Match) ≠ ⟨0, seedFor ⟨[p], rhs⟩ e⟩ := by
          intro hEq
          apply hxe
          injection hEq with ha hb
          exact bindPattern_inj p x e _ hnd hxlen hlen hsize hb
        simp [hne2, if_neg hxe]
    · rw [if_neg hxlen]
      have hxe : x ≠ e := by
        intro hEq
        rw [hEq] at hxlen
        exact hxlen hlen
      simp [hxe]
  rw [List.map_congr_left hpt, sum_map_ite_eq]

/-- Witness for C4 (amended) at the pattern (0,1) and the graph holding the
edge (7,8) twice: the assignment seeded from (7,8) has multiplicity 2 and
findMatches emits 2 * 2 = 4 hits for it. -/
theorem C4_amended_multiplicity_witness :
    ([0, 1] : List Nat).Nodup
    ∧ ([7, 8] : List Int).length = ([0, 1] : List Nat).length
    ∧ (⟨[[7, 8], [7, 8]], 8⟩ : Hypergraph).count
        (mapper ⟨[[7, 8], [7, 8]], 8⟩ [[0, 1]] (seedFor ⟨[[0, 1]], []⟩ [7, 8]))
        = (⟨[[7, 8], [7, 8]], 8⟩ : Hypergraph).edges.count [7, 8]
    ∧ (findMatches [⟨[[0, 1]], []⟩] ⟨[[7, 8], [7, 8]], 8⟩).count
        ⟨0, seedFor ⟨[[0, 1]], []⟩ [7, 8]⟩
        = (⟨[[7, 8], [7, 8]], 8⟩ : Hypergraph).edges.count [7, 8]
          * (⟨[[7, 8], [7, 8]], 8⟩ : Hypergraph).edges.count [7, 8] :=
  ⟨by decide, by decide,
   (C4_amended_multiplicity [0, 1] [] ⟨[[7, 8], [7, 8]], 8⟩ [7, 8] (by decide) (by decide)).1,
   (C4_amended_multiplicity [0, 1] [] ⟨[[7, 8], [7, 8]], 8⟩ [7, 8] (by decide) (by decide)).2⟩

/-- Counterexample for C4 as stated: for the rule (0,0) -> [] on the graph
with edges (3,3) and (3,4), the substituted lhs of the assignment [3]
exists once (m = 1), yet findMatches emits two hits for that (rule,
assignment) pair, because the non-matching edge (3,4) positionally seeds
the same assignment [3]. -/
theorem C4_counterexample :
    (findMatches [⟨[[0, 0]], []⟩] ⟨[[3, 3], [3, 4]], 4⟩).count ⟨0, [3]⟩ = 2
    ∧ (⟨[[3, 3], [3, 4]], 4⟩ : Hypergraph).count (mapper ⟨[[3, 3], [3, 4]], 4⟩ [[0, 0]] [3]) = 1
    ∧ (findMatches [⟨[[0, 0]], []⟩] ⟨[[3, 3], [3, 4]], 4⟩).count ⟨0, [3]⟩
        ≠ (⟨[[3, 3], [3, 4]], 4⟩ : Hypergraph).count (mapper ⟨[[3, 3], [3, 4]], 4⟩ [[0, 0]] [3]) :=
  ⟨by decide, by decide, by decide⟩

/-- Helper: event ordering permutes the hit list. -/
theorem perm_orderEvent (rank : Int → Int) (eo : EventOrdering) (ms : List Match) :
    (orderEvent rank eo ms).Perm ms := by
  cases eo with
  | random => exact List.Perm.refl ms
  | ascending => exact List.perm_insertionSort _ ms
  | descending => exact List.perm_insertionSort _ ms

/-- Helper: rule ordering permutes the hit list. -/
theorem perm_orderRule (rc : Nat) (ro : RuleOrdering) (ms : List Match) :
    (orderRule rc ro ms).Perm ms := by
  unfold orderRule
  by_cases h : 1 < rc
  · rw [if_pos h]
    cases ro with
    | mixed => exact List.Perm.refl ms
    | index => exact List.perm_insertionSort _ ms
    | indexrev => exact List.perm_insertionSort _ ms
  · rw [if_neg h]

/-- Helper: the whole ordering pipeline permutes the hit list whenever the
shuffle does. -/
theorem perm_orderAll (ps : Params) (hsh : ∀ n l, (ps.shuffle n l).Perm l)
    (causal : List CEvent) (step : Nat) (ms : List Match) :
    (orderAll ps causal step ms).Perm ms :=
  ((perm_orderRule _ _ _).trans (perm_orderEvent _ _ _)).trans (hsh step ms)

/-- Helper: every hit emitted by findMatches was replicated by a positive
multiplicity of its substituted full left-hand side, so it is valid against
the graph it was found in. -/
theorem count_pos_of_mem_findMatches (rules : List Rule) (g : Hypergraph) (mt : Match)
    (h : mt ∈ findMatches rules g) :
    g.count (mapper g (rules.getD mt.r default).lhs mt.m) ≠ 0 := by
  unfold findMatches at h
  by_cases hr : rules.length = 0
  · rw [if_pos hr] at h
    simp at h
  · rw [if_neg hr] at h
    rcases List.mem_flatMap.mp h with ⟨edge, hedge, h2⟩
    rcases List.mem_flatMap.mp h2 with ⟨i, hi, h3⟩
    simp only [matchesForEdgeRule] at h3
    split at h3
    · rcases List.mem_flatMap.mp h3 with ⟨mk, hmk, h4⟩
      rcases List.mem_replicate.mp h4 with ⟨hcne, hmt⟩
      subst hmt
      exact hcne
    · simp at h3

/-- Helper: a valid head hit with the budget already within one event makes
processMatches apply exactly that hit and stop. -/
theorem processMatches_stops (rules : List Rule) (maxevents : Nat) (mt : Match)
    (rest : List Match) (st : SysState)
    (hvalid : st.spatial.count (mapper st.spatial (rules.getD mt.r default).lhs mt.m) ≠ 0)
    (hb : maxevents ≤ st.eventcnt + 1) :
    processMatches rules maxevents (mt :: rest) st = applyHit rules st mt := by
  simp only [processMatches]
  rw [if_pos hvalid, if_pos (show maxevents ≤ (applyHit rules st mt).eventcnt from hb)]

/-- Helper: starting under the budget, processMatches never pushes the
event counter past the budget. -/
theorem processMatches_cnt_le (rules : List Rule) (N : Nat) :
    ∀ (ms : List Match) (st : SysState), st.eventcnt < N →
      (processMatches rules N ms st).eventcnt ≤ N := by
  intro ms
  induction ms with
  | nil =>
    intro st h
    simp only [processMatches]
    omega
  | cons mt rest ih =>
    intro st h
    simp only [processMatches]
    by_cases hv : st.spatial.count (mapper st.spatial (rules.getD mt.r default).lhs mt.m) ≠ 0
    · rw [if_pos hv]
      by_cases hb : N ≤ (applyHit rules st mt).eventcnt
      · rw [if_pos hb]
        exact Nat.succ_le_of_lt h
      · rw [if_neg hb]
        exact ih _ (by omega)
    · rw [if_neg hv]
      exact ih st h

/-- Helper: a finished budgeted loop that started under the budget finishes
at or under the budget. -/
theorem rewriteLoop_cnt_le (ps : Params) (N : Nat) :
    ∀ (fuel : Nat) (st b : SysState), st.eventcnt < N →
      rewriteLoop ps N fuel st = some b → b.eventcnt ≤ N := by
  intro fuel
  induction fuel with
  | zero =>
    intro st b h hl
    simp [rewriteLoop] at hl
  | succ fuel ih =>
    intro st b h hl
    simp only [rewriteLoop] at hl
    by_cases hms : findMatches ps.rules st.spatial = []
    · rw [if_pos hms] at hl
      injection hl with hb
      subst hb
      exact le_of_lt h
    · rw [if_neg hms] at hl
      have h2 : (processMatches ps.rules N
          (orderAll ps st.causal (st.step + 1)
            (findMatches ps.rules st.spatial))
          ⟨st.spatial, st.causal, st.eventcnt, st.step + 1⟩).eventcnt ≤ N :=
        processMatches_cnt_le ps.rules N _ _ h
      by_cases hb : N ≤ (processMatches ps.rules N
          (orderAll ps st.causal (st.step + 1)
            (findMatches ps.rules st.spatial))
          ⟨st.spatial, st.causal, st.eventcnt, st.step + 1⟩).eventcnt
      · rw [if_pos hb] at hl
        injection hl with hbe
        subst hbe
        exact h2
      · rw [if_neg hb] at hl
        exact ih _ b (by omega) hl

/-- C9: the budget is tested only after the post-increment, so a run with
maxEvents = 0 whose first round finds at least one hit still applies
exactly one event and finishes with event counter 1; for any budget N,
a loop that starts under N never finishes above N. -/
theorem C9_post_increment_budget (ps : Params) (hsh : ∀ n l, (ps.shuffle n l).Perm l) :
    (∀ (fuel : Nat) (st : SysState), st.eventcnt = 0 →
        findMatches ps.rules st.spatial ≠ [] →
        (rewriteLoop ps 0 (fuel + 1) st).map SysState.eventcnt = some 1)
    ∧ (∀ (N fuel : Nat) (st b : SysState), st.eventcnt < N →
        rewriteLoop ps N fuel st = some b → b.eventcnt ≤ N) := by
  constructor
  · intro fuel st h0 hne
    simp only [rewriteLoop]
    rw [if_neg hne]
    have hperm : (orderAll ps st.causal (st.step + 1)
        (findMatches ps.rules st.spatial)).Perm (findMatches ps.rules st.spatial) :=
      perm_orderAll ps hsh _ _ _
    cases hc : orderAll ps st.causal (st.step + 1) (findMatches ps.rules st.spatial) with
    | nil =>
      exfalso
      rw [hc] at hperm
      exact hne hperm.nil_eq.symm
    | cons mt rest =>
      have hmem : mt ∈ findMatches ps.rules st.spatial := by
        refine hperm.mem_iff.mp ?_
        rw [hc]
        exact List.mem_cons_self _ _
      have hval := count_pos_of_mem_findMatches ps.rules st.spatial mt hmem
      rw [processMatches_stops ps.rules 0 mt rest
        ⟨st.spatial, st.causal, st.eventcnt, st.step + 1⟩ hval (by omega)]
      rw [if_pos (Nat.zero_le _)]
      simp [applyHit, h0]
  · exact fun N fuel st b => rewriteLoop_cnt_le ps N fuel st b

/-- Witness for C9 on the concrete deletion system: with maxEvents = 0 and
two matching edges, the loop finishes with event counter 1, not 0. -/
theorem C9_post_increment_budget_witness :
    (rewriteLoop exPs 0 3 exSt).map SysState.eventcnt = some 1 :=
  (C9_post_increment_budget exPs (fun _ l => List.Perm.refl l)).1 2 exSt rfl (by decide)

/-- Helper: the budget-free processing loop never decreases the event
counter. -/
theorem processAll_cnt_mono (rules : List Rule) :
    ∀ (ms : List Match) (st : SysState), st.eventcnt ≤ (processAll rules ms st).eventcnt := by
  intro ms
  induction ms with
  | nil =>
    intro st
    simp only [processAll]
    exact le_refl _
  | cons mt rest ih =>
    intro st
    simp only [processAll]
    by_cases hv : st.spatial.count (mapper st.spatial (rules.getD mt.r default).lhs mt.m) ≠ 0
    · rw [if_pos hv]
      exact le_trans (Nat.le_succ _) (ih (applyHit rules st mt))
    · rw [if_neg hv]
      exact ih st

/-- Helper: the budget-free rewrite loop never decreases the event
counter. -/
theorem rewriteLoopAll_cnt_mono (ps : Params) :
    ∀ (fuel : Nat) (st u : SysState),
      rewriteLoopAll ps fuel st = some u → st.eventcnt ≤ u.eventcnt := by
  intro fuel
  induction fuel with
  | zero =>
    intro st u h
    simp [rewriteLoopAll] at h
  | succ fuel ih =>
    intro st u h
    simp only [rewriteLoopAll] at h
    by_cases hms : findMatches ps.rules st.spatial = []
    · rw [if_pos hms] at h
      injection h with h2
      subst h2
      exact le_refl _
    · rw [if_neg hms] at h
      exact le_trans
        (processAll_cnt_mono ps.rules
          (orderAll ps st.causal (st.step + 1) (findMatches ps.rules st.spatial))
          ⟨st.spatial, st.causal, st.eventcnt, st.step + 1⟩)
        (ih _ u h)

/-- Helper: while the counter is under the budget N, budgeted processing
agrees with budget-free processing, and in the round where budget-free
processing reaches or passes N the budgeted one stops exactly at N. -/
theorem processMatches_sync (rules : List Rule) (N : Nat) :
    ∀ (ms : List Match) (st : SysState), st.eventcnt < N →
      ((processAll rules ms st).eventcnt < N →
        processMatches rules N ms st = processAll rules ms st)
      ∧ (N ≤ (processAll rules ms st).eventcnt →
        (processMatches rules N ms st).eventcnt = N) := by
  intro ms
  induction ms with
  | nil =>
    intro st h
    constructor
    · intro h2
      simp only [processMatches, processAll]
    · intro h2
      exfalso
      simp only [processAll] at h2
      omega
  | cons mt rest ih =>
    intro st h
    simp only [processMatches, processAll]
    by_cases hv : st.spatial.count (mapper st.spatial (rules.getD mt.r default).lhs mt.m) ≠ 0
    · rw [if_pos hv, if_pos hv]
      by_cases hb : N ≤ (applyHit rules st mt).eventcnt
      · rw [if_pos hb]
        have hstep : (applyHit rules st mt).eventcnt = st.eventcnt + 1 := rfl
        have hmono := processAll_cnt_mono rules rest (applyHit rules st mt)
        constructor
        · intro h2
          exfalso
          omega
        · intro h2
          omega
      · rw [if_neg hb]
        exact ih (applyHit rules st mt) (by omega)
    · rw [if_neg hv, if_neg hv]
      exact ih st h

/-- Helper: a finished budget-free run with final counter E is simulated by
the budgeted run, which finishes with counter min N E. -/
theorem rewriteLoop_sync (ps : Params) (N : Nat) :
    ∀ (fuel : Nat) (st u : SysState), st.eventcnt < N →
      rewriteLoopAll ps fuel st = some u →
      ∃ b, rewriteLoop ps N fuel st = some b ∧ b.eventcnt = min N u.eventcnt := by
  intro fuel
  induction fuel with
  | zero =>
    intro st u h hl
    simp [rewriteLoopAll] at hl
  | succ fuel ih =>
    intro st u h hl
    simp only [rewriteLoopAll] at hl
    simp only [rewriteLoop]
    by_cases hms : findMatches ps.rules st.spatial = []
    · rw [if_pos hms] at hl ⊢
      injection hl with h2
      subst h2
      refine ⟨_, rfl, ?_⟩
      show st.eventcnt = min N st.eventcnt
      omega
    · rw [if_neg hms] at hl ⊢
      have hsync := processMatches_sync ps.rules N
        (orderAll ps st.causal (st.step + 1) (findMatches ps.rules st.spatial))
        ⟨st.spatial, st.causal, st.eventcnt, st.step + 1⟩ h
      by_cases hcase : (processAll ps.rules
          (orderAll ps st.causal (st.step + 1) (findMatches ps.rules st.spatial))
          ⟨st.spatial, st.causal, st.eventcnt, st.step + 1⟩).eventcnt < N
      · rw [hsync.1 hcase, if_neg (by omega)]
        exact ih _ u hcase hl
      · have hN := hsync.2 (by omega)
        rw [if_pos (by omega)]
        refine ⟨_, rfl, ?_⟩
        have hu := rewriteLoopAll_cnt_mono ps fuel _ u hl
        omega

/-- C2 (amended): for a budget N at least 1 (more precisely whenever the
run starts with its counter under N), the event counter at onFinished is
min (N, E) where E is the total number of reachable events, the counter of
the budget-free run at match exhaustion; for N = 0 the post-increment test
still applies the first valid hit, so this fails (see the counterexample) . -/
theorem C2_amended_budget_min (ps : Params) (N fuel : Nat) (st : SysState) (E : Nat)
    (h1 : st.eventcnt < N)
    (h2 : (rewriteLoopAll ps fuel st).map SysState.eventcnt = some E) :
    (rewriteLoop ps N fuel st).map SysState.eventcnt = some (min N E) := by
  rcases Option.map_eq_some'.mp h2 with ⟨u, hu, hE⟩
  rcases rewriteLoop_sync ps N fuel st u h1 hu with ⟨b, hb, hbe⟩
  rw [hb]
  simp only [Option.map_some']
  rw [hbe, hE]

/-- Witness for C2 (amended) on the concrete deletion system: the unbounded
run reaches 2 events, and the run budgeted at N = 1 finishes with
min 1 2 = 1 events. -/
theorem C2_amended_budget_min_witness :
    (0 : Nat) < 1
    ∧ (rewriteLoopAll exPs 3 exSt).map SysState.eventcnt = some 2
    ∧ (rewriteLoop exPs 1 3 exSt).map SysState.eventcnt = some (min 1 2) :=
  ⟨by decide, by decide, C2_amended_budget_min exPs 1 3 exSt 2 (by decide) (by decide)⟩

/-- Counterexample for C2 as stated: on the deletion system the total
number of reachable events is 2, yet the run with maxEvents = 0 finishes
with event counter 1, not min 0 2 = 0, because the budget is only checked
after the counter is incremented. -/
theorem C2_counterexample :
    (rewriteLoop exPs 0 3 exSt).map SysState.eventcnt = some 1
    ∧ (rewriteLoopAll exPs 3 exSt).map SysState.eventcnt = some 2
    ∧ (1 : Nat) ≠ min 0 2 :=
  ⟨by decide, by decide, by decide⟩

/-- Helper: the threaded join step accumulates exactly the pure join step's
hits and returns the store unchanged. -/
theorem extendStepSt_aux (pattern : List Nat) :
    ∀ (l start : List (List Int)) (g : Hypergraph),
      l.foldl (fun acc4 mk =>
        (acc4.1 ++ ((acc4.2.find ((mapper acc4.2 [pattern] mk).headD [])).reverse).map
            (fun e => bindPattern pattern e mk), acc4.2)) (start, g)
        = (start ++ l.flatMap (fun mk =>
            ((g.find ((mapper g [pattern] mk).headD [])).reverse).map
              (fun e => bindPattern pattern e mk)), g) := by
  intro l
  induction l with
  | nil => intro start g; simp
  | cons mk mks ih =>
    intro start g
    rw [List.foldl_cons]
    dsimp only
    rw [ih, List.flatMap_cons, List.append_assoc]

/-- Helper: the threaded join step equals the pure extendStep paired with
the untouched store. -/
theorem extendStepSt_eq (g : Hypergraph) (pattern : List Nat) (maps : List (List Int)) :
    extendStepSt g pattern maps = (extendStep g pattern maps, g) := by
  unfold extendStepSt extendStep
  dsimp only [Hypergraph.findSt]
  rw [extendStepSt_aux pattern maps.reverse [] g, List.nil_append]

/-- Helper: the threaded multi-pattern join equals the pure join paired
with the untouched store. -/
theorem joinedSt_aux :
    ∀ (pats : List (List Nat)) (start : List (List Int)) (g : Hypergraph),
      pats.foldl (fun acc3 pattern => extendStepSt acc3.2 pattern acc3.1) (start, g)
        = (pats.foldl (fun maps pattern => extendStep g pattern maps) start, g) := by
  intro pats
  induction pats with
  | nil => intro start g; rfl
  | cons p ps ih =>
    intro start g
    rw [List.foldl_cons, List.foldl_cons]
    dsimp only
    rw [extendStepSt_eq g p start, ih]

/-- Helper: joinedSt equals the pure join of matchesForEdgeRule paired with
the untouched store. -/
theorem joinedSt_eq (g : Hypergraph) (rule : Rule) (edge : List Int) :
    joinedSt g rule edge
      = ((rule.lhs.drop 1).foldl (fun maps pattern => extendStep g pattern maps)
          [seedFor rule edge], g) := by
  unfold joinedSt
  exact joinedSt_aux (rule.lhs.drop 1) [seedFor rule edge] g

/-- Helper: the threaded replication fold accumulates the pure replication
hits and returns the store unchanged. -/
theorem countFoldSt_aux (i : Nat) (rule : Rule) :
    ∀ (l : List (List Int)) (start : List Match) (g : Hypergraph),
      l.foldl (fun acc5 mk =>
        (acc5.1 ++ List.replicate (acc5.2.count (mapper acc5.2 rule.lhs mk)) ⟨i, mk⟩,
         acc5.2)) (start, g)
        = (start ++ l.flatMap (fun mk =>
            List.replicate (g.count (mapper g rule.lhs mk)) (⟨i, mk⟩ : Match)), g) := by
  intro l
  induction l with
  | nil => intro start g; simp
  | cons mk mks ih =>
    intro start g
    rw [List.foldl_cons]
    dsimp only
    rw [ih, List.flatMap_cons, List.append_assoc]

/-- Helper: threaded per-edge, per-rule hit generation equals the pure one
paired with the untouched store. -/
theorem matchesForEdgeRuleSt_eq (g : Hypergraph) (i : Nat) (rule : Rule) (edge : List Int) :
    matchesForEdgeRuleSt g i rule edge = (matchesForEdgeRule g i rule edge, g) := by
  unfold matchesForEdgeRuleSt matchesForEdgeRule
  by_cases h : edge.length = (rule.lhs.headD []).length
  · rw [if_pos h, if_pos h]
    simp only [joinedSt_eq]
    dsimp only [Hypergraph.countSt]
    rw [countFoldSt_aux i rule _ [] g, List.nil_append]
  · rw [if_neg h, if_neg h]

/-- Helper: the pure per-edge rule loop in fold form accumulates the
flatMap of the per-rule hits. -/
theorem findMatchesSt_inner_pure (rules : List Rule) (edge : List Int) :
    ∀ (idxs : List Nat) (acc : List Match × Hypergraph),
      idxs.foldl (fun acc2 i =>
        (acc2.1 ++ matchesForEdgeRule acc2.2 i (rules.getD i default) edge, acc2.2)) acc
        = (acc.1 ++ idxs.flatMap
            (fun i => matchesForEdgeRule acc.2 i (rules.getD i default) edge), acc.2) := by
  intro idxs
  induction idxs with
  | nil => intro acc; simp
  | cons i is ih =>
    intro acc
    rw [List.foldl_cons]
    rw [ih]
    rw [List.flatMap_cons, List.append_assoc]

/-- Helper: the threaded per-edge rule loop accumulates the pure hits and
returns the store unchanged. -/
theorem findMatchesSt_inner (rules : List Rule) (edge : List Int)
    (idxs : List Nat) (acc : List Match × Hypergraph) :
    idxs.foldl (fun acc2 i =>
      (acc2.1 ++ (matchesForEdgeRuleSt acc2.2 i (rules.getD i default) edge).1,
       (matchesForEdgeRuleSt acc2.2 i (rules.getD i default) edge).2)) acc
      = (acc.1 ++ idxs.flatMap
          (fun i => matchesForEdgeRule acc.2 i (rules.getD i default) edge), acc.2) := by
  simp only [matchesForEdgeRuleSt_eq]
  rw [findMatchesSt_inner_pure rules edge idxs acc]

/-- Helper: the threaded edge loop accumulates the pure hits and returns
the store unchanged. -/
theorem findMatchesSt_outer (rules : List Rule) :
    ∀ (edges : List (List Int)) (acc : List Match × Hypergraph),
      edges.foldl (fun acc edge =>
        (List.range rules.length).foldl (fun acc2 i =>
          (acc2.1 ++ (matchesForEdgeRuleSt acc2.2 i (rules.getD i default) edge).1,
           (matchesForEdgeRuleSt acc2.2 i (rules.getD i default) edge).2)) acc) acc
        = (acc.1 ++ edges.flatMap (fun edge => (List.range rules.length).flatMap
            (fun i => matchesForEdgeRule acc.2 i (rules.getD i default) edge)), acc.2) := by
  intro edges
  induction edges with
  | nil => intro acc; simp
  | cons e es ih =>
    intro acc
    rw [List.foldl_cons]
    rw [findMatchesSt_inner rules e (List.range rules.length) acc, ih]
    rw [List.flatMap_cons, List.append_assoc]

/-- Helper: the fully threaded Match Finder equals the pure findMatches
paired with the untouched store. -/
theorem findMatchesSt_eq (rules : List Rule) (g0 : Hypergraph) :
    findMatchesSt rules g0 = (findMatches rules g0, g0) := by
  unfold findMatchesSt findMatches
  by_cases h : rules.length = 0
  · rw [if_pos h, if_pos h]
  · rw [if_neg h, if_neg h, findMatchesSt_outer rules g0.edges ([], g0), List.nil_append]

/-- C8: one call of the Match Finder, with every store access threaded
explicitly, returns the hypergraph exactly as it received it (it only
reads through find, count and maxv), produces the same hit list as the
pure findMatches, and an empty rule set yields an empty hit list. -/
theorem C8_match_finder_frame (rules : List Rule) (g : Hypergraph) :
    (findMatchesSt rules g).2 = g
    ∧ (findMatchesSt rules g).1 = findMatches rules g
    ∧ findMatches [] g = [] := by
  rw [findMatchesSt_eq]
  exact ⟨rfl, rfl, rfl⟩

end HG
